import Mathlib

/-!
Shallow embedding of the domain layer of the workshop-graphql repository:
the value objects, the aggregates (User, Conversation and their entities)
and the generic in-memory keyed store, translated from the TypeScript
source. Strings are modelled by Lean `String`, the backing `Map` of the
store by an association list with JavaScript `Map` semantics (`set`
updates an existing key in place, otherwise appends; `get` looks the key
up). Fallible constructors (the TypeScript constructors that `throw`)
return `Except String`, carrying the thrown error message. Calls to
`Math.random().toString()` are modelled by an explicit string input, since
the source gives no determinism or uniqueness guarantee for them.
-/

namespace Workshop

/-- JavaScript default `Object.prototype.toString` output for a plain class
instance. `ValueObject` does not override `toString`, so rendering any value
object with `toString()` yields this constant string. -/
def jsDefaultToString : String := "[object Object]"

/-- The characters matched by the JavaScript regular-expression class `\s`
(ECMAScript WhiteSpace and LineTerminator code points). -/
def jsWhitespace (c : Char) : Bool :=
  c == ' ' || c == '\t' || c == '\n' || c == '\r' || c == '\x0b' || c == '\x0c' ||
  c == '\u00A0' || c == '\u1680' ||
  (0x2000 ≤ c.toNat && c.toNat ≤ 0x200A) ||
  c == '\u2028' || c == '\u2029' || c == '\u202F' || c == '\u205F' ||
  c == '\u3000' || c == '\uFEFF'

/-- A character matched by the class `[^\s@]` used for every part of the
email regular expression. -/
def emailAtomChar (c : Char) : Bool := !jsWhitespace c && c != '@'

/-- The sub-match `[^\s@]+\.[^\s@]+$` of the email regular expression: the
remainder after the `@` decomposes as a non-empty run of `[^\s@]`, a dot and
another non-empty run of `[^\s@]`. -/
def emailTailMatch (rest : List Char) : Bool :=
  (List.range rest.length).any fun p =>
    rest[p]? == some '.' && decide (1 ≤ p) && decide (p + 1 < rest.length) &&
    (rest.take p).all emailAtomChar && (rest.drop (p + 1)).all emailAtomChar

/-- `Email.isValid`: the JavaScript test
`/^[^\s@]+@[^\s@]+\.[^\s@]+$/.test(value)`, as membership of the string in
the anchored regular expression's language. -/
def emailIsValid (s : String) : Bool :=
  let cs := s.data
  (List.range cs.length).any fun q =>
    cs[q]? == some '@' && decide (1 ≤ q) &&
    (cs.take q).all emailAtomChar && emailTailMatch (cs.drop (q + 1))

/-- `Id.generate` derives the identifier string by
`Math.random().toString().substring(2, 8)`; the string produced by
`Math.random().toString()` is the explicit input `random`. -/
def idGenerate (random : String) : String :=
  String.mk ((random.data.drop 2).take 6)

structure Password where
  value : String
deriving DecidableEq, Repr

def Password.serialize (p : Password) : String := p.value

def Password.deserialize (v : String) : Password := ⟨v⟩

/-- `ValueObject.equals`: equality of the wrapped primitives (`===`). -/
def Password.equals (l r : Password) : Bool := l.value == r.value

structure Token where
  value : String
deriving DecidableEq, Repr

def Token.serialize (t : Token) : String := t.value

def Token.deserialize (v : String) : Token := ⟨v⟩

/-- `Token.fromPassword`: wraps the password's primitive value. -/
def Token.fromPassword (p : Password) : Token := ⟨p.value⟩

structure Email where
  value : String
deriving DecidableEq, Repr

/-- The `Email` constructor: runs the validation and throws
`DomainError: Invalid email ...` when the regular expression rejects. -/
def Email.new (value : String) : Except String Email :=
  if emailIsValid value then .ok ⟨value⟩
  else .error ("DomainError: Invalid email " ++ value)

def Email.serialize (e : Email) : String := e.value

/-- `Email.deserialize` is the inherited `ValueObject.deserialize`, which
calls `new this(value)` and so re-runs the `Email` constructor's
validation. -/
def Email.deserialize (v : String) : Except String Email := Email.new v

structure FullName where
  value : String
deriving DecidableEq, Repr

def FullName.serialize (n : FullName) : String := n.value

def FullName.deserialize (v : String) : FullName := ⟨v⟩

/-- `FullName` does not override `toString`, so rendering one with
JavaScript's default `Object.prototype.toString` yields the constant
`"[object Object]"`. -/
def FullName.jsToString (_ : FullName) : String := jsDefaultToString

structure UserId where
  value : String
deriving DecidableEq, Repr

def UserId.serialize (i : UserId) : String := i.value

def UserId.deserialize (v : String) : UserId := ⟨v⟩

/-- `UserId.generate` (inherited `Id.generate`). -/
def UserId.generate (random : String) : UserId := ⟨idGenerate random⟩

structure ConversationId where
  value : String
deriving DecidableEq, Repr

def ConversationId.serialize (i : ConversationId) : String := i.value

def ConversationId.generate (random : String) : ConversationId := ⟨idGenerate random⟩

structure ConversationTitle where
  value : String
deriving DecidableEq, Repr

def ConversationTitle.serialize (t : ConversationTitle) : String := t.value

structure MessageId where
  value : String
deriving DecidableEq, Repr

def MessageId.serialize (i : MessageId) : String := i.value

/-- `MessageId.generate` (inherited `Id.generate`). -/
def MessageId.generate (random : String) : MessageId := ⟨idGenerate random⟩

/-- `MessageId` does not override `toString`: the default rendering is the
constant `"[object Object]"`. -/
def MessageId.jsToString (_ : MessageId) : String := jsDefaultToString

structure MessageContent where
  value : String
deriving DecidableEq, Repr

/-- The `MessageContent` constructor: throws when the wrapped string is
longer than 100 characters. -/
def MessageContent.new (value : String) : Except String MessageContent :=
  if value.length > 100 then
    .error "DomainError: Message content must be less than 100 characters"
  else .ok ⟨value⟩

def MessageContent.serialize (c : MessageContent) : String := c.value

/-- `MessageContent.deserialize` re-runs the constructor's validation. -/
def MessageContent.deserialize (v : String) : Except String MessageContent :=
  MessageContent.new v

structure User where
  userId : UserId
  email : Email
  password : Password
  name : FullName
deriving DecidableEq, Repr

/-- `User.new`: constructs a user with a freshly generated `UserId`;
`random` is the string sampled by `Id.generate` for that identifier. -/
def User.new (random : String) (email : Email) (password : Password)
    (name : FullName) : User :=
  ⟨UserId.generate random, email, password, name⟩

def User.hasToken (u : User) (t : Token) : Bool := u.password.value == t.value

/-- `User.authenticate`: compares the candidate with the stored password by
value; on success returns `Token.fromPassword(candidate)`, otherwise throws
`DomainError: Invalid password`. -/
def User.authenticate (u : User) (password : Password) : Except String Token :=
  if Password.equals u.password password then .ok (Token.fromPassword password)
  else .error "DomainError: Invalid password"

/-- The `id` getter of `User` returns `this.name.toString()`. -/
def User.id (u : User) : String := u.name.jsToString

structure Message where
  messageId : MessageId
  author : UserId
  content : MessageContent
deriving DecidableEq, Repr

/-- `Message.redact`: a message with a freshly generated `MessageId`;
`random` is the string sampled by `Id.generate`. -/
def Message.redact (random : String) (author : UserId)
    (content : MessageContent) : Message :=
  ⟨MessageId.generate random, author, content⟩

/-- The `id` getter of `Message` returns `this.messageId.toString()`. -/
def Message.id (m : Message) : String := m.messageId.jsToString

structure Conversation where
  conversationId : ConversationId
  title : ConversationTitle
  members : List UserId
  messages : List Message
deriving DecidableEq, Repr

/-- `Conversation.publishMessage`: redacts a message from the author and
content and pushes it at the end of `this.messages`; `random` is the string
sampled by the message identifier's `Id.generate`. -/
def Conversation.publishMessage (c : Conversation) (random : String)
    (author : UserId) (content : MessageContent) : Conversation :=
  { c with messages := c.messages ++ [Message.redact random author content] }

/-- `Conversation.addMember`: pushes the user identifier at the end of
`this.members`. -/
def Conversation.addMember (c : Conversation) (userId : UserId) : Conversation :=
  { c with members := c.members ++ [userId] }

/-- The `id` getter of `Conversation` returns
`this.conversationId.serialize()`. -/
def Conversation.id (c : Conversation) : String := c.conversationId.serialize

/-- JavaScript `Map.prototype.set` on an association list: when the key is
present, update that entry in place (keeping its position); otherwise append
a new entry at the end (insertion order). -/
def mapSet {A : Type} (m : List (String × A)) (k : String) (v : A) :
    List (String × A) :=
  match m with
  | [] => [(k, v)]
  | (k', v') :: rest =>
    if k' = k then (k, v) :: rest else (k', v') :: mapSet rest k v

/-- JavaScript `Map.prototype.get`: the value of the entry with the key, or
`undefined` (`none`). -/
def mapGet {A : Type} (m : List (String × A)) (k : String) : Option A :=
  match m with
  | [] => none
  | (k', v') :: rest => if k' = k then some v' else mapGet rest k

/-- `InMemoryStore`: `storage = new Map<string, A>()`, modelled by an
association list in insertion order. The same class appears verbatim in the
aggregate-store snapshot and in `src/index.ts`. -/
structure InMemoryStore (A : Type) where
  storage : List (String × A)
deriving DecidableEq, Repr

/-- `load(id)`: `this.storage.get(id)` (the resolved promise's value). -/
def InMemoryStore.load {A : Type} (s : InMemoryStore A) (id : String) :
    Option A :=
  mapGet s.storage id

/-- `save(instance)`: `this.storage.set(instance.id, instance)`; the `id`
getter of the aggregate type is passed explicitly as `aggId`. -/
def InMemoryStore.save {A : Type} (aggId : A → String) (s : InMemoryStore A)
    (a : A) : InMemoryStore A :=
  ⟨mapSet s.storage (aggId a) a⟩

/-- `all()`: `Array.from(this.storage.values())`, in insertion order. -/
def InMemoryStore.all {A : Type} (s : InMemoryStore A) : List A :=
  s.storage.map Prod.snd

/-- `load` as a state transformer: the method body only reads
`this.storage`, so it returns the looked-up value and the store unchanged. -/
def InMemoryStore.loadOp {A : Type} (s : InMemoryStore A) (id : String) :
    Option A × InMemoryStore A :=
  (mapGet s.storage id, s)

/-- `all` as a state transformer: the method body only reads
`this.storage`, so it returns the values and the store unchanged. -/
def InMemoryStore.allOp {A : Type} (s : InMemoryStore A) :
    List A × InMemoryStore A :=
  (s.storage.map Prod.snd, s)

/-- The store state after saving, in order, each aggregate of `as` into an
initially empty store. -/
def InMemoryStore.ofSaves {A : Type} (aggId : A → String) (as : List A) :
    InMemoryStore A :=
  as.foldl (InMemoryStore.save aggId) ⟨[]⟩

/-! Lemmas about the association-list model of the JavaScript `Map`. -/

theorem mapGet_mapSet_self {A : Type} (m : List (String × A)) (k : String)
    (v : A) : mapGet (mapSet m k v) k = some v := by
  induction m with
  | nil => simp [mapSet, mapGet]
  | cons p rest ih =>
    obtain ⟨k', v'⟩ := p
    by_cases h : k' = k
    · simp [mapSet, h, mapGet]
    · simp [mapSet, h, mapGet, ih]

theorem mapGet_mapSet_ne {A : Type} (m : List (String × A)) (k k' : String)
    (v : A) (h : k' ≠ k) : mapGet (mapSet m k v) k' = mapGet m k' := by
  induction m with
  | nil => simp [mapSet, mapGet, Ne.symm h]
  | cons q rest ih =>
    obtain ⟨k₀, v₀⟩ := q
    by_cases h₀ : k₀ = k
    · subst h₀
      simp [mapSet, mapGet, Ne.symm h]
    · simp [mapSet, h₀, mapGet, ih]

theorem mem_mapSet_of_ne {A : Type} (m : List (String × A)) (k : String)
    (v : A) (p : String × A) (h : p.1 ≠ k) :
    p ∈ mapSet m k v ↔ p ∈ m := by
  induction m with
  | nil =>
    simp only [mapSet, List.mem_singleton, List.not_mem_nil, iff_false]
    intro hp
    subst hp
    exact h rfl
  | cons q rest ih =>
    obtain ⟨k₀, v₀⟩ := q
    by_cases h₀ : k₀ = k
    · simp only [mapSet, if_pos h₀, List.mem_cons]
      constructor
      · rintro (rfl | hp)
        · exact absurd rfl h
        · exact Or.inr hp
      · rintro (rfl | hp)
        · exact absurd h₀ h
        · exact Or.inr hp
    · simp [mapSet, h₀, List.mem_cons, ih]

theorem mapSet_entry_cases {A : Type} (m : List (String × A)) (k : String)
    (v : A) (p : String × A) (hp : p ∈ mapSet m k v) :
    p ∈ m ∨ p = (k, v) := by
  induction m with
  | nil =>
    simp only [mapSet, List.mem_singleton] at hp
    exact Or.inr hp
  | cons q rest ih =>
    obtain ⟨k₀, v₀⟩ := q
    by_cases h₀ : k₀ = k
    · simp only [mapSet, if_pos h₀, List.mem_cons] at hp
      rcases hp with rfl | hp
      · exact Or.inr rfl
      · exact Or.inl (List.mem_cons_of_mem _ hp)
    · simp only [mapSet, if_neg h₀, List.mem_cons] at hp
      rcases hp with rfl | hp
      · exact Or.inl (List.mem_cons_self _ _)
      · rcases ih hp with h1 | h1
        · exact Or.inl (List.mem_cons_of_mem _ h1)
        · exact Or.inr h1

theorem mapSet_map_fst {A : Type} (m : List (String × A)) (k : String)
    (v : A) :
    (mapSet m k v).map Prod.fst =
      if k ∈ m.map Prod.fst then m.map Prod.fst
      else m.map Prod.fst ++ [k] := by
  induction m with
  | nil => simp [mapSet]
  | cons q rest ih =>
    obtain ⟨k₀, v₀⟩ := q
    by_cases h₀ : k₀ = k
    · subst h₀
      simp [mapSet]
    · simp only [mapSet, if_neg h₀, List.map_cons, ih, List.mem_cons]
      by_cases hk : k ∈ rest.map Prod.fst
      · simp [hk, Ne.symm h₀]
      · simp [hk, Ne.symm h₀]

theorem nodup_mapSet {A : Type} (m : List (String × A)) (k : String) (v : A)
    (h : (m.map Prod.fst).Nodup) : ((mapSet m k v).map Prod.fst).Nodup := by
  rw [mapSet_map_fst]
  split
  · exact h
  · next hk => simp [List.nodup_append, h, hk]

theorem mapGet_mem {A : Type} (m : List (String × A)) (k : String) {v : A}
    (h : mapGet m k = some v) : (k, v) ∈ m := by
  induction m with
  | nil => simp [mapGet] at h
  | cons q rest ih =>
    obtain ⟨k₀, v₀⟩ := q
    by_cases h₀ : k₀ = k
    · subst h₀
      have hv : v₀ = v := by simpa [mapGet] using h
      subst hv
      exact List.mem_cons_self _ _
    · simp only [mapGet, if_neg h₀] at h
      exact List.mem_cons_of_mem _ (ih h)

theorem mapGet_eq_none_iff {A : Type} (m : List (String × A)) (k : String) :
    mapGet m k = none ↔ ∀ v : A, (k, v) ∉ m := by
  induction m with
  | nil => simp [mapGet]
  | cons q rest ih =>
    obtain ⟨k₀, v₀⟩ := q
    by_cases h₀ : k₀ = k
    · subst h₀
      constructor
      · intro h
        simp [mapGet] at h
      · intro h
        exact absurd (List.mem_cons_self _ _) (h v₀)
    · simp only [mapGet, if_neg h₀, ih]
      constructor
      · intro h v hv
        rcases List.mem_cons.1 hv with hv | hv
        · exact h₀ (congrArg Prod.fst hv).symm
        · exact h v hv
      · intro h v hv
        exact h v (List.mem_cons_of_mem _ hv)

theorem mapGet_of_mem_nodup {A : Type} (m : List (String × A))
    (hnd : (m.map Prod.fst).Nodup) {k : String} {v : A} (hm : (k, v) ∈ m) :
    mapGet m k = some v := by
  induction m with
  | nil => simp at hm
  | cons q rest ih =>
    obtain ⟨k₀, v₀⟩ := q
    simp only [List.map_cons, List.nodup_cons] at hnd
    rcases List.mem_cons.1 hm with hq | hq
    · cases hq
      simp [mapGet]
    · have hne : k₀ ≠ k := by
        intro hk
        subst hk
        exact hnd.1 (List.mem_map.2 ⟨(k₀, v), hq, rfl⟩)
      simp only [mapGet, if_neg hne]
      exact ih hnd.2 hq

theorem foldl_save_load {A : Type} (aggId : A → String) (as : List A)
    (m : InMemoryStore A) (k : String) :
    (as.foldl (InMemoryStore.save aggId) m).load k =
      match as.reverse.find? (fun b => aggId b == k) with
      | some b => some b
      | none => m.load k := by
  induction as generalizing m with
  | nil => simp
  | cons a as ih =>
    rw [List.foldl_cons, ih]
    rw [List.reverse_cons, List.find?_append]
    cases hfind : as.reverse.find? (fun b => aggId b == k) with
    | some b => simp
    | none =>
      simp only [Option.none_or, List.find?_singleton]
      by_cases h : aggId a = k
      · subst h
        simp [InMemoryStore.save, InMemoryStore.load, mapGet_mapSet_self]
      · simp [h, InMemoryStore.save, InMemoryStore.load,
          mapGet_mapSet_ne _ _ _ _ (Ne.symm h)]

theorem save_preserves_good {A : Type} (aggId : A → String) (as : List A)
    (m : InMemoryStore A)
    (h1 : (m.storage.map Prod.fst).Nodup)
    (h2 : ∀ p ∈ m.storage, p.1 = aggId p.2) :
    ((as.foldl (InMemoryStore.save aggId) m).storage.map Prod.fst).Nodup ∧
    ∀ p ∈ (as.foldl (InMemoryStore.save aggId) m).storage, p.1 = aggId p.2 := by
  induction as generalizing m with
  | nil => exact ⟨h1, h2⟩
  | cons a as ih =>
    rw [List.foldl_cons]
    apply ih
    · exact nodup_mapSet _ _ _ h1
    · intro p hp
      rcases mapSet_entry_cases _ _ _ _ hp with h | h
      · exact h2 p h
      · rw [h]

/-- C2: for every aggregate `a` and every store state, immediately after
`store.save(a)`, `store.load(a.id)` returns the very aggregate that was
saved (equal in every field, since the store keeps the instance itself). -/
theorem store_load_after_save {A : Type} (aggId : A → String)
    (s : InMemoryStore A) (a : A) :
    (s.save aggId a).load (aggId a) = some a :=
  mapGet_mapSet_self s.storage (aggId a) a

/-- C9: `store.load(id)` never fails: for every store state and identity
string it totally evaluates, returning the instance stored under `id` when
one exists and the explicit not-found result `none` (undefined) otherwise —
a return value, not a thrown error. -/
theorem store_load_never_fails {A : Type} (st : InMemoryStore A)
    (id : String) :
    (∃ a, st.load id = some a ∧ (id, a) ∈ st.storage) ∨
    (st.load id = none ∧ ∀ a : A, (id, a) ∉ st.storage) := by
  cases h : mapGet st.storage id with
  | some a => exact Or.inl ⟨a, h, mapGet_mem _ _ h⟩
  | none => exact Or.inr ⟨h, (mapGet_eq_none_iff _ _).1 h⟩

/-- C10: `save(a)` modifies at most the entry keyed by `a.id`: looking up any
other key is unchanged and every entry under another key is kept verbatim;
the read operations `load` and `all`, as state transformers, return the
store contents unchanged. -/
theorem store_save_frame {A : Type} (aggId : A → String)
    (st : InMemoryStore A) (a : A) :
    (∀ k, k ≠ aggId a → (st.save aggId a).load k = st.load k) ∧
    (∀ p : String × A, p.1 ≠ aggId a →
      (p ∈ (st.save aggId a).storage ↔ p ∈ st.storage)) ∧
    (∀ id, st.loadOp id = (st.load id, st)) ∧ st.allOp = (st.all, st) :=
  ⟨fun _ hk => mapGet_mapSet_ne _ _ _ _ hk,
   fun _ hp => mem_mapSet_of_ne _ _ _ _ hp,
   fun _ => rfl, rfl⟩

/-- C4: after any sequence of saves into an initially empty store, each
identity keys at most one instance, `load` returns the last instance saved
for the looked-up identity, and `all()` contains exactly the last instance
saved per distinct identity (so a second save with the same identity
replaces the first). -/
theorem store_last_write_wins {A : Type} (aggId : A → String) (as : List A) :
    ((InMemoryStore.ofSaves aggId as).all.map aggId).Nodup ∧
    (∀ k, (InMemoryStore.ofSaves aggId as).load k =
      as.reverse.find? (fun b => aggId b == k)) ∧
    (∀ a, a ∈ (InMemoryStore.ofSaves aggId as).all ↔
      as.reverse.find? (fun b => aggId b == aggId a) = some a) := by
  obtain ⟨h1, h2⟩ := save_preserves_good aggId as ⟨[]⟩ (by simp) (by simp)
  have hload : ∀ k, (InMemoryStore.ofSaves aggId as).load k =
      as.reverse.find? (fun b => aggId b == k) := by
    intro k
    rw [InMemoryStore.ofSaves, foldl_save_load]
    cases hfind : as.reverse.find? (fun b => aggId b == k) with
    | some b => rfl
    | none => simp [InMemoryStore.load, mapGet]
  refine ⟨?_, hload, ?_⟩
  · have hmap : (InMemoryStore.ofSaves aggId as).all.map aggId =
        (InMemoryStore.ofSaves aggId as).storage.map Prod.fst := by
      rw [InMemoryStore.all, List.map_map]
      exact List.map_congr_left fun p hp => (h2 p hp).symm
    rw [hmap]
    exact h1
  · intro a
    constructor
    · intro ha
      rcases List.mem_map.1 ha with ⟨p, hp, hpa⟩
      have hpeq : p = (aggId a, a) := by
        have h21 := h2 p hp
        cases p
        simp_all
      rw [← hload (aggId a)]
      exact mapGet_of_mem_nodup _ h1 (hpeq ▸ hp)
    · intro hfind
      have hl : mapGet (InMemoryStore.ofSaves aggId as).storage (aggId a) =
          some a := by
        rw [show mapGet (InMemoryStore.ofSaves aggId as).storage (aggId a) =
            (InMemoryStore.ofSaves aggId as).load (aggId a) from rfl,
          hload]
        exact hfind
      exact List.mem_map.2 ⟨(aggId a, a), mapGet_mem _ _ hl, rfl⟩

/-- C1 (the code violates the claim): two distinct users constructed via
`User.new` with different names and emails (and different generated
`UserId`s) still obtain the same `id` string, because the `id` getter
returns `this.name.toString()` and `ValueObject` inherits the default
`Object.prototype.toString`, the constant `"[object Object]"`. -/
theorem user_id_not_exclusive :
    (User.new "0.11111111" ⟨"a@b.com"⟩ ⟨"pw"⟩ ⟨"Ann"⟩).name ≠
      (User.new "0.22222222" ⟨"b@c.de"⟩ ⟨"pw2"⟩ ⟨"Bob"⟩).name ∧
    (User.new "0.11111111" ⟨"a@b.com"⟩ ⟨"pw"⟩ ⟨"Ann"⟩).email ≠
      (User.new "0.22222222" ⟨"b@c.de"⟩ ⟨"pw2"⟩ ⟨"Bob"⟩).email ∧
    (User.new "0.11111111" ⟨"a@b.com"⟩ ⟨"pw"⟩ ⟨"Ann"⟩).userId ≠
      (User.new "0.22222222" ⟨"b@c.de"⟩ ⟨"pw2"⟩ ⟨"Bob"⟩).userId ∧
    User.id (User.new "0.11111111" ⟨"a@b.com"⟩ ⟨"pw"⟩ ⟨"Ann"⟩) =
      User.id (User.new "0.22222222" ⟨"b@c.de"⟩ ⟨"pw2"⟩ ⟨"Bob"⟩) := by
  refine ⟨?_, ?_, ?_, rfl⟩ <;> decide

/-- C3: `authenticate(Q)` on an account storing password `P` returns a token
wrapping exactly `P`'s primitive value iff `Q` equals `P` by value, and for
`Q` differing from `P` by value it returns no token, failing with the
authentication error. -/
theorem authenticate_correct (u : User) (q : Password) :
    (u.authenticate q = .ok ⟨u.password.value⟩ ↔ q.value = u.password.value) ∧
    (q.value ≠ u.password.value →
      u.authenticate q = .error "DomainError: Invalid password") := by
  constructor
  · constructor
    · intro h
      by_cases hq : u.password.value = q.value
      · exact hq.symm
      · rw [User.authenticate, if_neg (by simp [Password.equals, hq])] at h
        cases h
    · intro h
      rw [User.authenticate, if_pos (by simp [Password.equals, h])]
      simp [Token.fromPassword, h]
  · intro h
    rw [User.authenticate,
      if_neg (by simp [Password.equals]; exact fun hh => h hh.symm)]

/-- C5: for every primitive accepted by a value-object kind, deserializing
the serialization of the constructed value object returns it unchanged, and
serialization is the identity on the wrapped primitive (shown for the
validated kinds Email and MessageContent and the plain kinds Password,
FullName and Token). -/
theorem valueobject_roundtrip (p : String) :
    (∀ e, Email.deserialize p = .ok e →
      Email.serialize e = p ∧ Email.deserialize (Email.serialize e) = .ok e) ∧
    (∀ c, MessageContent.deserialize p = .ok c →
      MessageContent.serialize c = p ∧
      MessageContent.deserialize (MessageContent.serialize c) = .ok c) ∧
    Password.serialize (Password.deserialize p) = p ∧
    Password.deserialize (Password.serialize (Password.deserialize p)) =
      Password.deserialize p ∧
    FullName.serialize (FullName.deserialize p) = p ∧
    FullName.deserialize (FullName.serialize (FullName.deserialize p)) =
      FullName.deserialize p ∧
    Token.serialize (Token.deserialize p) = p ∧
    Token.deserialize (Token.serialize (Token.deserialize p)) =
      Token.deserialize p := by
  refine ⟨?_, ?_, rfl, rfl, rfl, rfl, rfl, rfl⟩
  · intro e he
    simp only [Email.deserialize, Email.new] at he
    by_cases hv : emailIsValid p
    · rw [if_pos hv] at he
      cases he
      refine ⟨rfl, ?_⟩
      simp only [Email.deserialize, Email.new, Email.serialize]
      rw [if_pos hv]
    · rw [if_neg hv] at he
      cases he
  · intro c hc
    simp only [MessageContent.deserialize, MessageContent.new] at hc
    by_cases hv : p.length > 100
    · rw [if_pos hv] at hc
      cases hc
    · rw [if_neg hv] at hc
      cases hc
      refine ⟨rfl, ?_⟩
      simp only [MessageContent.deserialize, MessageContent.new,
        MessageContent.serialize]
      rw [if_neg hv]

/-- C7: constructing a MessageContent from a string fails exactly when the
string is strictly longer than 100 characters, and succeeds for every
string of length at most 100 (the boundary of exactly 100 included). -/
theorem message_content_boundary (s : String) :
    (s.length > 100 → MessageContent.new s =
      .error "DomainError: Message content must be less than 100 characters") ∧
    (s.length ≤ 100 → MessageContent.new s = .ok ⟨s⟩) := by
  constructor
  · intro h
    simp only [MessageContent.new, if_pos h]
  · intro h
    simp only [MessageContent.new]
    rw [if_neg (by omega)]


/-- C8 (amended): on a conversation starting with zero messages, publishing
"hi" then "there" yields a messages sequence of length 2 in call order, each
message carrying the identifier freshly generated for it; the two
identifiers are distinct whenever the two generated identifier strings
differ (the generator itself guarantees no uniqueness). -/
theorem conversation_publish_two (cid : ConversationId)
    (title : ConversationTitle) (members : List UserId) (author : UserId)
    (r1 r2 : String) :
    (((Conversation.mk cid title members []).publishMessage r1 author
        ⟨"hi"⟩).publishMessage r2 author ⟨"there"⟩).messages.length = 2 ∧
    (((Conversation.mk cid title members []).publishMessage r1 author
        ⟨"hi"⟩).publishMessage r2 author ⟨"there"⟩).messages.map
        Message.content = [⟨"hi"⟩, ⟨"there"⟩] ∧
    (((Conversation.mk cid title members []).publishMessage r1 author
        ⟨"hi"⟩).publishMessage r2 author ⟨"there"⟩).messages.map
        Message.messageId = [MessageId.generate r1, MessageId.generate r2] ∧
    (idGenerate r1 ≠ idGenerate r2 →
      ((((Conversation.mk cid title members []).publishMessage r1 author
        ⟨"hi"⟩).publishMessage r2 author ⟨"there"⟩).messages.map
        Message.messageId).Nodup) := by
  refine ⟨rfl, rfl, rfl, ?_⟩
  intro h
  simp [Conversation.publishMessage, Message.redact, MessageId.generate, h]

/-- C8 counterexample: with the generator sampling the `Math.random` outputs
"0.12345611" and then "0.12345622" (two different numbers), both generated
identifiers are the six-character substring "123456", so the two published
messages carry equal identifiers: the claimed distinctness fails. -/
theorem conversation_publish_collision :
    (((Conversation.mk ⟨"c1"⟩ ⟨"General"⟩ [] []).publishMessage "0.12345611"
      ⟨"u1"⟩ ⟨"hi"⟩).publishMessage "0.12345622" ⟨"u1"⟩
      ⟨"there"⟩).messages.length = 2 ∧
    ¬ ((((Conversation.mk ⟨"c1"⟩ ⟨"General"⟩ [] []).publishMessage
      "0.12345611" ⟨"u1"⟩ ⟨"hi"⟩).publishMessage "0.12345622" ⟨"u1"⟩
      ⟨"there"⟩).messages.map Message.messageId).Nodup := by
  decide


/-- The claim's notion of a syntactically valid email, stated from the
spec's wording rather than from the code: a non-empty local part, an `'@'`,
a non-empty domain, a dot and a non-empty top-level part, with no
whitespace anywhere and `'@'` occurring only as the separator (the parts of
an address contain no further `'@'`). -/
def syntacticallyValidEmail (s : String) : Prop :=
  ∃ l d t : List Char,
    l ≠ [] ∧ d ≠ [] ∧ t ≠ [] ∧
    (∀ c ∈ l, ¬ jsWhitespace c = true ∧ c ≠ '@') ∧
    (∀ c ∈ d, ¬ jsWhitespace c = true ∧ c ≠ '@') ∧
    (∀ c ∈ t, ¬ jsWhitespace c = true ∧ c ≠ '@') ∧
    s.data = l ++ '@' :: (d ++ '.' :: t)

theorem emailAtomChar_iff (c : Char) :
    emailAtomChar c = true ↔ ¬ jsWhitespace c = true ∧ c ≠ '@' := by
  simp [emailAtomChar]

theorem emailTailMatch_iff (rest : List Char) :
    emailTailMatch rest = true ↔
      ∃ d t : List Char, d ≠ [] ∧ t ≠ [] ∧
        (∀ c ∈ d, emailAtomChar c = true) ∧
        (∀ c ∈ t, emailAtomChar c = true) ∧
        rest = d ++ '.' :: t := by
  constructor
  · intro h
    rw [emailTailMatch, List.any_eq_true] at h
    obtain ⟨p, hp, hcond⟩ := h
    rw [List.mem_range] at hp
    simp only [Bool.and_eq_true, beq_iff_eq, decide_eq_true_eq,
      List.all_eq_true] at hcond
    obtain ⟨⟨⟨⟨hdot, hp1⟩, hplen⟩, htake⟩, hdrop⟩ := hcond
    refine ⟨rest.take p, rest.drop (p + 1), ?_, ?_, htake, hdrop, ?_⟩
    · intro hnil
      have hlen := congrArg List.length hnil
      simp only [List.length_take, List.length_nil] at hlen
      omega
    · intro hnil
      have hlen := congrArg List.length hnil
      simp only [List.length_drop, List.length_nil] at hlen
      omega
    · conv_lhs => rw [← List.take_append_drop p rest]
      congr 1
      rw [List.drop_eq_getElem_cons hp]
      have hget : rest[p] = '.' := by
        have := hdot
        rw [List.getElem?_eq_getElem hp, Option.some_inj] at this
        exact this
      rw [hget]
  · rintro ⟨d, t, hd, ht, hda, hta, rfl⟩
    have hdlen : 1 ≤ d.length := by
      cases d with
      | nil => exact absurd rfl hd
      | cons _ _ => simp
    have htlen : 1 ≤ t.length := by
      cases t with
      | nil => exact absurd rfl ht
      | cons _ _ => simp
    rw [emailTailMatch, List.any_eq_true]
    refine ⟨d.length, ?_, ?_⟩
    · rw [List.mem_range, List.length_append, List.length_cons]
      omega
    · simp only [Bool.and_eq_true, beq_iff_eq, decide_eq_true_eq,
        List.all_eq_true]
      refine ⟨⟨⟨⟨?_, hdlen⟩, ?_⟩, ?_⟩, ?_⟩
      · rw [List.getElem?_append_right (Nat.le_refl d.length)]
        simp
      · rw [List.length_append, List.length_cons]
        omega
      · rw [List.take_left]
        exact hda
      · rw [show d.length + 1 = (d ++ ['.']).length by simp,
          show d ++ '.' :: t = (d ++ ['.']) ++ t by simp]
        rw [List.drop_left]
        exact hta

theorem emailIsValid_iff (s : String) :
    emailIsValid s = true ↔ syntacticallyValidEmail s := by
  constructor
  · intro h
    simp only [emailIsValid] at h
    rw [List.any_eq_true] at h
    obtain ⟨q, hq, hcond⟩ := h
    rw [List.mem_range] at hq
    simp only [Bool.and_eq_true, beq_iff_eq, decide_eq_true_eq,
      List.all_eq_true] at hcond
    obtain ⟨⟨⟨hat, hq1⟩, htake⟩, htail⟩ := hcond
    rw [emailTailMatch_iff] at htail
    obtain ⟨d, t, hd, ht, hda, hta, hrest⟩ := htail
    refine ⟨s.data.take q, d, t, ?_, hd, ht, ?_, ?_, ?_, ?_⟩
    · intro hnil
      have hlen := congrArg List.length hnil
      simp only [List.length_take, List.length_nil] at hlen
      omega
    · intro c hc
      exact (emailAtomChar_iff c).1 (htake c hc)
    · intro c hc
      exact (emailAtomChar_iff c).1 (hda c hc)
    · intro c hc
      exact (emailAtomChar_iff c).1 (hta c hc)
    · conv_lhs => rw [← List.take_append_drop q s.data]
      congr 1
      rw [List.drop_eq_getElem_cons hq]
      have hget : s.data[q] = '@' := by
        have hx := hat
        rw [List.getElem?_eq_getElem hq, Option.some_inj] at hx
        exact hx
      rw [hget, ← hrest]
  · rintro ⟨l, d, t, hl, hd, ht, hla, hda, hta, hdecomp⟩
    have hllen : 1 ≤ l.length := by
      cases l with
      | nil => exact absurd rfl hl
      | cons _ _ => simp
    simp only [emailIsValid]
    rw [List.any_eq_true]
    refine ⟨l.length, ?_, ?_⟩
    · rw [List.mem_range, hdecomp, List.length_append, List.length_cons]
      omega
    · simp only [Bool.and_eq_true, beq_iff_eq, decide_eq_true_eq,
        List.all_eq_true]
      refine ⟨⟨⟨?_, hllen⟩, ?_⟩, ?_⟩
      · rw [hdecomp, List.getElem?_append_right (Nat.le_refl l.length)]
        simp
      · rw [hdecomp, List.take_left]
        intro c hc
        exact (emailAtomChar_iff c).2 (hla c hc)
      · rw [hdecomp,
          show l ++ '@' :: (d ++ '.' :: t) = (l ++ ['@']) ++ (d ++ '.' :: t)
            by simp,
          show l.length + 1 = (l ++ ['@']).length by simp,
          List.drop_left, emailTailMatch_iff]
        exact ⟨d, t, hd, ht, fun c hc => (emailAtomChar_iff c).2 (hda c hc),
          fun c hc => (emailAtomChar_iff c).2 (hta c hc), rfl⟩

/-- C6: constructing an Email succeeds for every syntactically valid email
string (non-empty local part, `'@'`, non-empty domain, dot, non-empty
top-level part, no whitespace) and fails with the validation error for
every other string — in particular for strings missing an `'@'` or missing
a dot in the domain part. -/
theorem email_construction_valid (s : String) :
    (syntacticallyValidEmail s → Email.new s = .ok ⟨s⟩) ∧
    (¬ syntacticallyValidEmail s →
      Email.new s = .error ("DomainError: Invalid email " ++ s)) := by
  constructor
  · intro h
    simp only [Email.new]
    rw [if_pos ((emailIsValid_iff s).2 h)]
  · intro h
    have hv : ¬ emailIsValid s = true := fun hv => h ((emailIsValid_iff s).1 hv)
    simp only [Email.new]
    rw [if_neg hv]

/-! Concrete evaluations of the embedded definitions on the spec's example
scenario, checked by the kernel. -/

theorem email_isValid_examples :
    emailIsValid "a@b.com" = true ∧ emailIsValid "ab.com" = false ∧
    emailIsValid "a@bcom" = false ∧ emailIsValid "a@b." = false ∧
    emailIsValid "a b@c.d" = false := by
  decide

theorem syntacticallyValidEmail_example : syntacticallyValidEmail "a@b.com" :=
  ⟨['a'], ['b'], ['c', 'o', 'm'], by decide, by decide, by decide, by decide,
    by decide, by decide, by decide⟩

theorem authenticate_example :
    (User.new "0.5" ⟨"a@b.com"⟩ ⟨"pw"⟩ ⟨"Ann"⟩).authenticate ⟨"pw"⟩ =
      .ok ⟨"pw"⟩ ∧
    (User.new "0.5" ⟨"a@b.com"⟩ ⟨"pw"⟩ ⟨"Ann"⟩).authenticate ⟨"wrong"⟩ =
      .error "DomainError: Invalid password" :=
  ⟨rfl, rfl⟩

theorem message_content_boundary_example :
    MessageContent.new (String.mk (List.replicate 100 'a')) =
      .ok ⟨String.mk (List.replicate 100 'a')⟩ ∧
    MessageContent.new (String.mk (List.replicate 101 'a')) =
      .error "DomainError: Message content must be less than 100 characters" :=
  ⟨rfl, rfl⟩

end Workshop
